import Mathlib

/-!
# Verification of the variable rolling-window bounds calculator

Shallow embedding of `pandas/_libs/window/indexers.pyx`, function
`calculate_variable_window_bounds`.  Machine `int64` values are modelled as
unbounded `Int` (no claim under study involves 64-bit overflow); the two
`numpy` arrays are modelled as `List Int`; the garbage contents of the
freshly allocated `end` array (`np.empty`, slots never written by the sweep)
are modelled by an explicit memory function `endMem : Nat → Int` giving the
value found in each slot.  The `while` loop of the source is modelled with an
explicit fuel counter and an `Option` result: `none` means the fuel ran out;
a theorem below shows that fuel `num_values` (the amount the wrapper passes)
never runs out.
-/

/--
One inner `for index_i in range(lo, num_values)`-with-`break` loop of the
source, searching for the first position at which
`idx_scalar * index[index_i] > idx_scalar * mx`.
`cnt` is the number of positions left to examine starting at `lo`; the result
is the first breaking position, or `none` if no examined position breaks.
-/
def scanBreakFrom (index : List Int) (idx_scalar mx : Int) : Nat → Nat → Option Nat
  | 0, _ => none
  | cnt + 1, lo =>
    if idx_scalar * index.getD lo 0 > idx_scalar * mx then some lo
    else scanBreakFrom index idx_scalar mx cnt (lo + 1)

/--
The value the source's inner loops leave in `index_step_i` / `index_window_i`:
scan positions `lo, lo+1, ..., num_values-1`; on the first position whose
value exceeds the ceiling `mx` (in `idx_scalar` sense) stop and keep that
position minus one; if no position exceeds it keep the default
`num_values - 1`.
-/
def scanBreak (index : List Int) (idx_scalar mx : Int) (lo num_values : Nat) : Nat :=
  match scanBreakFrom index idx_scalar mx (num_values - lo) lo with
  | some b => b - 1
  | none => num_values - 1

/--
`index_step_i` of one sweep iteration: the first inner loop of the source,
scanning from `index_si + 1` against the ceiling
`index_step_max = index[index_si] + idx_scalar*(step_size - 1)`.
-/
def stepEnd (index : List Int) (idx_scalar step_size : Int) (index_si num_values : Nat) : Nat :=
  scanBreak index idx_scalar (index.getD index_si 0 + idx_scalar * (step_size - 1))
    (index_si + 1) num_values

/--
`index_window_i` of one sweep iteration: the second inner loop of the source,
scanning from `next_index_ei + 1` (the previous window's end, not the current
window's start) against the ceiling
`index_window_max = index[index_si] + idx_scalar*(window_size - 1)`.
-/
def windowEnd (index : List Int) (idx_scalar window_size : Int)
    (index_si next_index_ei num_values : Nat) : Nat :=
  scanBreak index idx_scalar (index.getD index_si 0 + idx_scalar * (window_size - 1))
    (next_index_ei + 1) num_values

/--
The source's cursor update
`next_index_ei = next_index_si if next_index_si > index_window_i + 1 else index_window_i + 1`
with `next_index_si = index_step_i + 1`.
-/
def nextEi (index_step_i index_window_i : Nat) : Nat :=
  if index_step_i + 1 > index_window_i + 1 then index_step_i + 1 else index_window_i + 1

/--
The `while next_index_ei < num_values` sweep of the source.  Each iteration
records the pair `(start[window_i], end[window_i]) = (index_si, index_window_i)`
written during that iteration; the returned list holds these pairs in slot
order (slot `window_i` = list position `window_i`).  `fuel` bounds the number
of iterations; `none` reports fuel exhaustion (a modelling artifact: the
wrapper passes fuel `num_values`, shown below to be enough).
-/
def sweepLoop (index : List Int) (idx_scalar window_size step_size : Int)
    (num_values : Nat) : Nat → Nat → Nat → Option (List (Int × Int))
  | 0, _, next_index_ei =>
    if next_index_ei < num_values then none else some []
  | fuel + 1, next_index_si, next_index_ei =>
    if next_index_ei < num_values then
      let index_si := next_index_si
      let index_step_i := stepEnd index idx_scalar step_size index_si num_values
      let index_window_i := windowEnd index idx_scalar window_size index_si next_index_ei num_values
      match sweepLoop index idx_scalar window_size step_size num_values fuel
          (index_step_i + 1) (nextEi index_step_i index_window_i) with
      | none => none
      | some rest => some (((index_si : Int), (index_window_i : Int)) :: rest)
    else some []

/--
Direction detection of the source: `idx_scalar = -1` when
`index[num_values - 1] < index[0]` (descending), else `1`.
-/
def idxScalar (num_values : Nat) (index : List Int) : Int :=
  if index.getD (num_values - 1) 0 < index.getD 0 0 then -1 else 1

/-- The slots `(start[i], end[i])`, `i < window_i`, written by the sweep. -/
def sweepPairs (num_values : Nat) (index : List Int) (window_size step_size : Int) :
    List (Int × Int) :=
  (sweepLoop index (idxScalar num_values index) window_size step_size num_values
    num_values 0 0).getD []

/--
The element-wise validity mask of the source,
`(start >= 0) & (start <= end) & ((end - start + 1) >= min_periods)`
(the source's `if min_periods is not None` guard is invariably true because
`min_periods` was already defaulted to `0`).
-/
def validCond (min_periods : Int) (p : Int × Int) : Bool :=
  decide (p.1 ≥ 0) && decide (p.1 ≤ p.2) && decide (p.2 - p.1 + 1 ≥ min_periods)

/-- The slots written by the sweep that survive the validity mask. -/
def validPairs (num_values : Nat) (index : List Int)
    (window_size step_size min_periods : Int) : List (Int × Int) :=
  (sweepPairs num_values index window_size step_size).filter (validCond min_periods)

/-- `numpy` boolean-mask selection `xs[mask]`. -/
def maskSelect (xs : List Int) (mask : List Bool) : List Int :=
  (xs.zip mask).filterMap (fun xb => if xb.2 then some xb.1 else none)

/-- The source's `left_open` flag: set unless `closed` is `left` or `both`. -/
def leftOpenFlag (closed : String) : Bool :=
  !(closed == "left" || closed == "both")

/-- The source's `right_open` flag: set unless `closed` is `right` or `both`. -/
def rightOpenFlag (closed : String) : Bool :=
  !(closed == "right" || closed == "both")

/--
`calculate_variable_window_bounds` of
`pandas/_libs/window/indexers.pyx`.  Parameter order and defaulting follow the
source: `step_size_obj`/`min_periods_obj`/`closed` are optional with defaults
`1`/`0`/`"left"`; `center` is ignored (kept only to match the source's
signature).  The `start` array is allocated and pre-filled with `-1`; the
`end` array is allocated with `np.empty`, its slot `i` holding the garbage
value `endMem i` until written.  When `num_values < 1` the two (empty) arrays
are returned immediately.  Otherwise the sweep fills the first `window_i`
slots, the validity mask is computed on the un-adjusted arrays, the whole
arrays are then shifted for open boundaries (`start -= 1` when `left_open`,
`end += 1` when `right_open`), and finally the mask selects the surviving
slots.
-/
def calculate_variable_window_bounds
    (num_values : Nat) (window_size : Int)
    (step_size_obj min_periods_obj : Option Int)
    (center : Option Bool) (closed : Option String)
    (index : List Int) (endMem : Nat → Int) : List Int × List Int :=
  let closedStr := closed.getD "left"
  let right_open := rightOpenFlag closedStr
  let left_open := leftOpenFlag closedStr
  let idx_scalar := idxScalar num_values index
  let min_periods := min_periods_obj.getD 0
  let step_size := step_size_obj.getD 1
  if num_values < 1 then ([], [])
  else
    let pairs := (sweepLoop index idx_scalar window_size step_size num_values
      num_values 0 0).getD []
    let start0 : List Int := pairs.map Prod.fst ++
      List.replicate (num_values - pairs.length) (-1)
    let end0 : List Int := pairs.map Prod.snd ++
      ((List.range num_values).drop pairs.length).map endMem
    let valid := List.zipWith
      (fun s e => decide (s ≥ 0) && decide (s ≤ e) &&
        decide (e - s + 1 ≥ min_periods)) start0 end0
    let start1 := if left_open then start0.map (fun s => s - 1) else start0
    let end1 := if right_open then end0.map (fun e => e + 1) else end0
    (maskSelect start1 valid, maskSelect end1 valid)

/--
The mirror-image correspondence named by the spec's direction-invariance
property, modelled from the spec's words: each window `[s, e]` over positions
`0..N-1` reflects to `[N-1-e, N-1-s]` and the emission order reverses.
-/
def mirrorBounds (num_values : Nat) (bounds : List Int × List Int) :
    List Int × List Int :=
  (bounds.2.reverse.map (fun e => (num_values : Int) - 1 - e),
   bounds.1.reverse.map (fun s => (num_values : Int) - 1 - s))

/-! ## Properties of the inner scans -/

/-- If the scan reports a breaking position, that position is in range,
breaks, and every earlier scanned position does not break. -/
theorem scanBreakFrom_some {index : List Int} {sc mx : Int} :
    ∀ {cnt lo b : Nat}, scanBreakFrom index sc mx cnt lo = some b →
      lo ≤ b ∧ b < lo + cnt ∧ sc * index.getD b 0 > sc * mx ∧
        ∀ q, lo ≤ q → q < b → ¬(sc * index.getD q 0 > sc * mx) := by
  intro cnt
  induction cnt with
  | zero => intro lo b h; simp [scanBreakFrom] at h
  | succ n ih =>
    intro lo b h
    rw [scanBreakFrom] at h
    by_cases hc : sc * index.getD lo 0 > sc * mx
    · rw [if_pos hc] at h
      injection h with h
      subst h
      exact ⟨Nat.le_refl _, by omega, hc, fun q hq1 hq2 => absurd hq1 (by omega)⟩
    · rw [if_neg hc] at h
      obtain ⟨h1, h2, h3, h4⟩ := ih h
      refine ⟨by omega, by omega, h3, ?_⟩
      intro q hq1 hq2
      rcases Nat.eq_or_lt_of_le hq1 with rfl | hlt
      · exact hc
      · exact h4 q hlt hq2

/-- If the scan reports no break, no scanned position breaks. -/
theorem scanBreakFrom_none {index : List Int} {sc mx : Int} :
    ∀ {cnt lo : Nat}, scanBreakFrom index sc mx cnt lo = none →
      ∀ q, lo ≤ q → q < lo + cnt → ¬(sc * index.getD q 0 > sc * mx) := by
  intro cnt
  induction cnt with
  | zero => intro lo _ q hq1 hq2; omega
  | succ n ih =>
    intro lo h q hq1 hq2
    rw [scanBreakFrom] at h
    by_cases hc : sc * index.getD lo 0 > sc * mx
    · rw [if_pos hc] at h; exact absurd h (by simp)
    · rw [if_neg hc] at h
      rcases Nat.eq_or_lt_of_le hq1 with rfl | hlt
      · exact hc
      · exact ih h q hlt (by omega)

/-- Case characterization of `scanBreak`. -/
theorem scanBreak_eq (index : List Int) (sc mx : Int) (lo nv : Nat) :
    (∃ b, scanBreakFrom index sc mx (nv - lo) lo = some b ∧
      scanBreak index sc mx lo nv = b - 1) ∨
    (scanBreakFrom index sc mx (nv - lo) lo = none ∧
      scanBreak index sc mx lo nv = nv - 1) := by
  unfold scanBreak
  cases hb : scanBreakFrom index sc mx (nv - lo) lo with
  | none => exact Or.inr ⟨rfl, rfl⟩
  | some b => exact Or.inl ⟨b, rfl, rfl⟩

/-- The scan result is at least `lo - 1`. -/
theorem scanBreak_ge (index : List Int) (sc mx : Int) (lo nv : Nat) (h : lo ≤ nv) :
    lo - 1 ≤ scanBreak index sc mx lo nv := by
  rcases scanBreak_eq index sc mx lo nv with ⟨b, hb, heq⟩ | ⟨hb, heq⟩
  · have := (scanBreakFrom_some hb).1
    omega
  · omega

/-- The scan result is at most `nv - 1`. -/
theorem scanBreak_le (index : List Int) (sc mx : Int) (lo nv : Nat) :
    scanBreak index sc mx lo nv ≤ nv - 1 := by
  rcases scanBreak_eq index sc mx lo nv with ⟨b, hb, heq⟩ | ⟨hb, heq⟩
  · obtain ⟨h1, h2, -, -⟩ := scanBreakFrom_some hb
    omega
  · omega

/-- Every position between `lo` and the scan result fails the exceedance
test: every position the scan skipped over stays within the ceiling. -/
theorem scanBreak_not_exceed (index : List Int) (sc mx : Int) (lo nv q : Nat)
    (hlo1 : 1 ≤ lo) (hlonv : lo ≤ nv) (hq1 : lo ≤ q)
    (hq2 : q ≤ scanBreak index sc mx lo nv) :
    ¬(sc * index.getD q 0 > sc * mx) := by
  rcases scanBreak_eq index sc mx lo nv with ⟨b, hb, heq⟩ | ⟨hb, heq⟩
  · obtain ⟨h1, h2, h3, h4⟩ := scanBreakFrom_some hb
    exact h4 q hq1 (by omega)
  · exact scanBreakFrom_none hb q hq1 (by omega)

/-- If every position breaking the larger ceiling also breaks the smaller
one, the smaller ceiling's scan reports a break no later. -/
theorem scanBreakFrom_le_of_imp {index : List Int} {sc mx1 mx2 : Int}
    (himp : ∀ q, sc * index.getD q 0 > sc * mx2 → sc * index.getD q 0 > sc * mx1) :
    ∀ {cnt lo b2 : Nat}, scanBreakFrom index sc mx2 cnt lo = some b2 →
      ∃ b1, b1 ≤ b2 ∧ scanBreakFrom index sc mx1 cnt lo = some b1 := by
  intro cnt
  induction cnt with
  | zero => intro lo b2 h; simp [scanBreakFrom] at h
  | succ n ih =>
    intro lo b2 h
    rw [scanBreakFrom] at h
    by_cases hc1 : sc * index.getD lo 0 > sc * mx1
    · refine ⟨lo, ?_, by rw [scanBreakFrom, if_pos hc1]⟩
      by_cases hc2 : sc * index.getD lo 0 > sc * mx2
      · rw [if_pos hc2] at h; injection h with h; omega
      · rw [if_neg hc2] at h
        have := (scanBreakFrom_some h).1
        omega
    · have hc2 : ¬(sc * index.getD lo 0 > sc * mx2) := fun hc2 => hc1 (himp lo hc2)
      rw [if_neg hc2] at h
      obtain ⟨b1, hle, hb1⟩ := ih h
      exact ⟨b1, hle, by rw [scanBreakFrom, if_neg hc1]; exact hb1⟩

/-- Raising the ceiling (in scalar sense) cannot shrink the scan result. -/
theorem scanBreak_mono (index : List Int) (sc mx1 mx2 : Int) (lo nv : Nat)
    (h : sc * mx1 ≤ sc * mx2) :
    scanBreak index sc mx1 lo nv ≤ scanBreak index sc mx2 lo nv := by
  have himp : ∀ q, sc * index.getD q 0 > sc * mx2 → sc * index.getD q 0 > sc * mx1 :=
    fun q hq => lt_of_le_of_lt h hq
  rcases scanBreak_eq index sc mx2 lo nv with ⟨b2, hb2, heq2⟩ | ⟨hb2, heq2⟩
  · obtain ⟨b1, hle, hb1⟩ := scanBreakFrom_le_of_imp himp hb2
    rcases scanBreak_eq index sc mx1 lo nv with ⟨b1x, hb1x, heq1⟩ | ⟨hb1x, heq1⟩
    · rw [hb1] at hb1x
      injection hb1x with hb1x
      omega
    · rw [hb1] at hb1x
      exact absurd hb1x (by simp)
  · have := scanBreak_le index sc mx1 lo nv
    omega

/-! ## Properties of the sweep loop -/

/-- `nextEi` is past the step cursor. -/
theorem nextEi_ge_left (a b : Nat) : a + 1 ≤ nextEi a b := by
  unfold nextEi; split <;> omega

/-- `nextEi` is past the window end. -/
theorem nextEi_ge_right (a b : Nat) : b + 1 ≤ nextEi a b := by
  unfold nextEi; split <;> omega

/-- When the window scan stopped no later than the step scan, the two
cursors coincide after the update. -/
theorem nextEi_eq_of_le {a b : Nat} (h : b ≤ a) : nextEi a b = a + 1 := by
  unfold nextEi; split <;> omega

/-- The window scan result is at least the previous end cursor. -/
theorem windowEnd_ge (index : List Int) (sc ws : Int) (si nei nv : Nat)
    (h : nei < nv) : nei ≤ windowEnd index sc ws si nei nv := by
  have := scanBreak_ge index sc (index.getD si 0 + sc * (ws - 1)) (nei + 1) nv (by omega)
  unfold windowEnd
  omega

/-- The window scan result is at most `nv - 1`. -/
theorem windowEnd_le (index : List Int) (sc ws : Int) (si nei nv : Nat) :
    windowEnd index sc ws si nei nv ≤ nv - 1 :=
  scanBreak_le index sc (index.getD si 0 + sc * (ws - 1)) (nei + 1) nv

/-- The fuel the wrapper passes suffices: with `nv - nei` units of fuel the
sweep completes, emitting at most `nv - nei` slots.  The key fact is that
`next_index_ei` strictly increases on every iteration. -/
theorem sweepLoop_isSome (index : List Int) (sc ws ss : Int) (nv : Nat) :
    ∀ (fuel nsi nei : Nat), nv - nei ≤ fuel →
      ∃ ps, sweepLoop index sc ws ss nv fuel nsi nei = some ps ∧
        ps.length ≤ nv - nei := by
  intro fuel
  induction fuel with
  | zero =>
    intro nsi nei h
    refine ⟨[], ?_, by simp⟩
    rw [sweepLoop, if_neg (by omega)]
  | succ n ih =>
    intro nsi nei h
    by_cases hg : nei < nv
    · have hwge := windowEnd_ge index sc ws nsi nei nv hg
      have hnext : nei + 1 ≤
          nextEi (stepEnd index sc ss nsi nv) (windowEnd index sc ws nsi nei nv) := by
        have := nextEi_ge_right (stepEnd index sc ss nsi nv)
          (windowEnd index sc ws nsi nei nv)
        omega
      obtain ⟨ps, hps, hlen⟩ := ih (stepEnd index sc ss nsi nv + 1)
        (nextEi (stepEnd index sc ss nsi nv) (windowEnd index sc ws nsi nei nv))
        (by omega)
      refine ⟨((nsi : Int), (windowEnd index sc ws nsi nei nv : Int)) :: ps, ?_, ?_⟩
      · simp only [sweepLoop]
        rw [if_pos hg, hps]
      · simp only [List.length_cons]
        omega
    · exact ⟨[], by rw [sweepLoop, if_neg hg], by simp⟩

/-- Every slot the sweep emits has a start strictly below `nv` and an end at
most `nv - 1`; both components are (casts of) positions. -/
theorem sweepLoop_shape (index : List Int) (sc ws ss : Int) (nv : Nat) :
    ∀ (fuel nsi nei : Nat) (ps : List (Int × Int)), nsi ≤ nei →
      sweepLoop index sc ws ss nv fuel nsi nei = some ps →
      ∀ p ∈ ps, ∃ s w : Nat, p = ((s : Int), (w : Int)) ∧ s < nv ∧ w < nv := by
  intro fuel
  induction fuel with
  | zero =>
    intro nsi nei ps hle hps
    rw [sweepLoop] at hps
    split at hps
    · exact absurd hps (by simp)
    · injection hps with hps
      subst hps
      intro p hp
      cases hp
  | succ n ih =>
    intro nsi nei ps hle hps
    simp only [sweepLoop] at hps
    split at hps
    case isTrue hg =>
      split at hps
      case h_1 heq => exact absurd hps (by simp)
      case h_2 rest heq =>
        injection hps with hps
        subst hps
        intro p hp
        rcases List.mem_cons.mp hp with rfl | hp'
        · refine ⟨nsi, windowEnd index sc ws nsi nei nv, rfl, by omega, ?_⟩
          have := windowEnd_le index sc ws nsi nei nv
          omega
        · have hle' : stepEnd index sc ss nsi nv + 1 ≤
              nextEi (stepEnd index sc ss nsi nv) (windowEnd index sc ws nsi nei nv) :=
            nextEi_ge_left _ _
          exact ih _ _ rest hle' heq p hp'
    case isFalse hg =>
      injection hps with hps
      subst hps
      intro p hp
      cases hp

/-- The direction scalar is always `1` or `-1`. -/
theorem idxScalar_cases (nv : Nat) (index : List Int) :
    idxScalar nv index = 1 ∨ idxScalar nv index = -1 := by
  unfold idxScalar
  split
  · exact Or.inr rfl
  · exact Or.inl rfl

/-- When the step ceiling is at least the window ceiling (`ws ≤ ss`) and the
two read cursors coincide, the step scan stops no earlier than the window
scan, so the cursors coincide again after the update. -/
theorem windowEnd_le_stepEnd (index : List Int) (sc ws ss : Int) (si nv : Nat)
    (hsc : sc = 1 ∨ sc = -1) (hss : ws ≤ ss) :
    windowEnd index sc ws si si nv ≤ stepEnd index sc ss si nv := by
  unfold windowEnd stepEnd
  apply scanBreak_mono
  have h2 : sc * sc = 1 := by rcases hsc with rfl | rfl <;> norm_num
  have e1 : sc * (index.getD si 0 + sc * (ws - 1)) =
      sc * index.getD si 0 + sc * sc * (ws - 1) := by ring
  have e2 : sc * (index.getD si 0 + sc * (ss - 1)) =
      sc * index.getD si 0 + sc * sc * (ss - 1) := by ring
  rw [e1, e2, h2]
  omega

/-- Containment invariant: whenever the two read cursors coincide at the head
of each iteration (which `ws ≤ ss` preserves), every slot the sweep emits
spans only positions whose index value stays within `ws` of the value at its
start, in `sc` direction. -/
theorem sweepLoop_containment (index : List Int) (sc ws ss : Int) (nv : Nat)
    (hsc : sc = 1 ∨ sc = -1) (hws : 0 ≤ ws) (hss : ws ≤ ss) :
    ∀ (fuel nsi nei : Nat) (ps : List (Int × Int)), nsi = nei →
      sweepLoop index sc ws ss nv fuel nsi nei = some ps →
      ∀ p ∈ ps, ∃ s w : Nat, p = ((s : Int), (w : Int)) ∧
        ∀ q : Nat, s ≤ q → q ≤ w →
          sc * (index.getD q 0 - index.getD s 0) ≤ ws := by
  intro fuel
  induction fuel with
  | zero =>
    intro nsi nei ps hst hps
    rw [sweepLoop] at hps
    split at hps
    · exact absurd hps (by simp)
    · injection hps with hps
      subst hps
      intro p hp
      cases hp
  | succ n ih =>
    intro nsi nei ps hst hps
    subst hst
    simp only [sweepLoop] at hps
    split at hps
    case isTrue hg =>
      split at hps
      case h_1 heq => exact absurd hps (by simp)
      case h_2 rest heq =>
        injection hps with hps
        subst hps
        intro p hp
        rcases List.mem_cons.mp hp with rfl | hp'
        · refine ⟨nsi, windowEnd index sc ws nsi nsi nv, rfl, ?_⟩
          intro q hq1 hq2
          rcases Nat.eq_or_lt_of_le hq1 with heqq | hlt
          · rw [← heqq]
            have hz : sc * (index.getD nsi 0 - index.getD nsi 0) = 0 := by ring
            omega
          · have hne := scanBreak_not_exceed index sc
              (index.getD nsi 0 + sc * (ws - 1)) (nsi + 1) nv q
              (by omega) (by omega) (by omega) hq2
            have h2 : sc * sc = 1 := by rcases hsc with rfl | rfl <;> norm_num
            have e1 : sc * (index.getD nsi 0 + sc * (ws - 1)) =
                sc * index.getD nsi 0 + sc * sc * (ws - 1) := by ring
            have e2 : sc * (index.getD q 0 - index.getD nsi 0) =
                sc * index.getD q 0 - sc * index.getD nsi 0 := by ring
            rw [e1, h2] at hne
            omega
        · have hcoin : stepEnd index sc ss nsi nv + 1 =
              nextEi (stepEnd index sc ss nsi nv) (windowEnd index sc ws nsi nsi nv) :=
            (nextEi_eq_of_le (windowEnd_le_stepEnd index sc ws ss nsi nv hsc hss)).symm
          exact ih _ _ rest hcoin heq p hp'
    case isFalse hg =>
      injection hps with hps
      subst hps
      intro p hp
      cases hp

/-! ## From the arrays-and-mask pipeline to the filtered slot list -/

/-- Mask selection on a cons. -/
theorem maskSelect_cons (x : Int) (xs : List Int) (b : Bool) (mask : List Bool) :
    maskSelect (x :: xs) (b :: mask) =
      (if b then [x] else []) ++ maskSelect xs mask := by
  unfold maskSelect
  rw [List.zip_cons_cons, List.filterMap_cons]
  cases b <;> simp

/-- An all-false mask selects nothing. -/
theorem maskSelect_all_false (xs : List Int) (mask : List Bool)
    (h : ∀ b ∈ mask, b = false) : maskSelect xs mask = [] := by
  induction xs generalizing mask with
  | nil => rfl
  | cons x xs ihx =>
    cases mask with
    | nil => rfl
    | cons b ms =>
      have hb := h b (List.mem_cons_self b ms)
      subst hb
      rw [maskSelect_cons, if_neg (by simp)]
      exact ihx ms (fun c hc => h c (List.mem_cons_of_mem _ hc))

/-- Mask selection splits over appends of matching length. -/
theorem maskSelect_append (xs ys : List Int) (bs cs : List Bool)
    (h : xs.length = bs.length) :
    maskSelect (xs ++ ys) (bs ++ cs) = maskSelect xs bs ++ maskSelect ys cs := by
  unfold maskSelect
  rw [List.zip_append h, List.filterMap_append]

/-- Selecting the adjusted starts of a slot list with the mask computed from
its own unadjusted components is filtering then adjusting. -/
theorem maskSelect_zipWith_fst (ps : List (Int × Int)) (f : Int → Int)
    (c : Int → Int → Bool) :
    maskSelect ((ps.map Prod.fst).map f)
      (List.zipWith c (ps.map Prod.fst) (ps.map Prod.snd)) =
      (ps.filter (fun p => c p.1 p.2)).map (fun p => f p.1) := by
  induction ps with
  | nil => rfl
  | cons p ps ih =>
    simp only [List.map_cons, List.zipWith_cons_cons, maskSelect_cons, List.filter_cons]
    cases hc : c p.1 p.2 <;> simpa using ih

/-- Same as `maskSelect_zipWith_fst` for the adjusted ends. -/
theorem maskSelect_zipWith_snd (ps : List (Int × Int)) (f : Int → Int)
    (c : Int → Int → Bool) :
    maskSelect ((ps.map Prod.snd).map f)
      (List.zipWith c (ps.map Prod.fst) (ps.map Prod.snd)) =
      (ps.filter (fun p => c p.1 p.2)).map (fun p => f p.2) := by
  induction ps with
  | nil => rfl
  | cons p ps ih =>
    simp only [List.map_cons, List.zipWith_cons_cons, maskSelect_cons, List.filter_cons]
    cases hc : c p.1 p.2 <;> simpa using ih

/-- Every mask entry computed over the sentinel suffix (`start = -1`) is
false: the first conjunct `start >= 0` already fails. -/
theorem mask_false_on_sentinel (mp : Int) (k : Nat) (suffE : List Int) :
    ∀ b ∈ List.zipWith
      (fun s e => decide (s ≥ 0) && decide (s ≤ e) && decide (e - s + 1 ≥ mp))
      (List.replicate k (-1)) suffE, b = false := by
  induction k generalizing suffE with
  | zero => simp
  | succ n ihn =>
    cases suffE with
    | nil => simp
    | cons e es =>
      simp only [List.replicate_succ, List.zipWith_cons_cons, List.mem_cons]
      rintro b (rfl | hb)
      · rfl
      · exact ihn es b hb

/-- Conditional whole-array decrement as a single map. -/
theorem ite_map_sub (b : Bool) (l : List Int) :
    (if b then l.map (fun s => s - 1) else l) =
      l.map (fun s => s - (if b then 1 else 0)) := by
  cases b <;> simp

/-- Conditional whole-array increment as a single map. -/
theorem ite_map_add (b : Bool) (l : List Int) :
    (if b then l.map (fun e => e + 1) else l) =
      l.map (fun e => e + (if b then 1 else 0)) := by
  cases b <;> simp

/-- Bridge: the arrays-and-mask pipeline of the wrapper equals the validity
filtered slot list with the boundary adjustment mapped over it.  In
particular the sentinel suffix (never-written slots) contributes nothing. -/
theorem calc_eq_validPairs (num_values : Nat) (window_size : Int)
    (sso mpo : Option Int) (center : Option Bool) (cl : Option String)
    (index : List Int) (endMem : Nat → Int) :
    calculate_variable_window_bounds num_values window_size sso mpo center cl
        index endMem =
      ((validPairs num_values index window_size (sso.getD 1) (mpo.getD 0)).map
        (fun p => p.1 - (if leftOpenFlag (cl.getD "left") then 1 else 0)),
       (validPairs num_values index window_size (sso.getD 1) (mpo.getD 0)).map
        (fun p => p.2 + (if rightOpenFlag (cl.getD "left") then 1 else 0))) := by
  by_cases h0 : num_values < 1
  · have h0' : num_values = 0 := Nat.lt_one_iff.mp h0
    subst h0'
    simp only [calculate_variable_window_bounds, validPairs, sweepPairs, sweepLoop]
    simp
  · simp only [calculate_variable_window_bounds]
    rw [if_neg h0]
    rw [ite_map_sub, ite_map_add, List.map_append, List.map_append,
      List.zipWith_append, maskSelect_append, maskSelect_append,
      maskSelect_zipWith_fst, maskSelect_zipWith_snd,
      maskSelect_all_false _ _ (mask_false_on_sentinel _ _ _),
      maskSelect_all_false _ _ (mask_false_on_sentinel _ _ _),
      List.append_nil, List.append_nil]
    · rfl
    · simp
    · simp
    · simp

/-- Characterization of `rightOpenFlag` as the claim words it. -/
theorem rightOpenFlag_iff (s : String) :
    rightOpenFlag s = true ↔ (s ≠ "right" ∧ s ≠ "both") := by
  simp [rightOpenFlag, not_or]

/-- Characterization of `leftOpenFlag` as the claim words it. -/
theorem leftOpenFlag_iff (s : String) :
    leftOpenFlag s = true ↔ (s ≠ "left" ∧ s ≠ "both") := by
  simp [leftOpenFlag, not_or]

/-! ## Claim theorems -/

/--
C6: for every call with `num_values = 0` the function raises nothing (it is a
total function in the embedding, mirroring the source's early return) and
returns two empty sequences.
-/
theorem c6_empty_input_returns_empty (window_size : Int)
    (sso mpo : Option Int) (center : Option Bool) (cl : Option String)
    (index : List Int) (endMem : Nat → Int) :
    calculate_variable_window_bounds 0 window_size sso mpo center cl index endMem =
      ([], []) := rfl

/--
C2: a slot produced by the sweep appears in the returned pair exactly when its
pre-adjustment values satisfy `start >= 0`, `start <= end` and
`end - start + 1 >= min_periods` (with `min_periods` defaulting to 0): the
surviving slots are the filter of the sweep slots by that condition, and each
returned sequence has exactly one entry per surviving slot — failing slots
are dropped entirely (output shrinks), never null-filled.
-/
theorem c2_validity_filter (num_values : Nat) (window_size : Int)
    (sso mpo : Option Int) (center : Option Bool) (cl : Option String)
    (index : List Int) (endMem : Nat → Int) :
    validPairs num_values index window_size (sso.getD 1) (mpo.getD 0) =
      (sweepPairs num_values index window_size (sso.getD 1)).filter
        (fun p => decide (p.1 ≥ 0) && decide (p.1 ≤ p.2) &&
          decide (p.2 - p.1 + 1 ≥ mpo.getD 0)) ∧
    calculate_variable_window_bounds num_values window_size sso mpo center cl
        index endMem =
      ((validPairs num_values index window_size (sso.getD 1) (mpo.getD 0)).map
        (fun p => p.1 - (if leftOpenFlag (cl.getD "left") then 1 else 0)),
       (validPairs num_values index window_size (sso.getD 1) (mpo.getD 0)).map
        (fun p => p.2 + (if rightOpenFlag (cl.getD "left") then 1 else 0))) ∧
    (calculate_variable_window_bounds num_values window_size sso mpo center cl
        index endMem).1.length =
      (validPairs num_values index window_size (sso.getD 1) (mpo.getD 0)).length ∧
    (calculate_variable_window_bounds num_values window_size sso mpo center cl
        index endMem).2.length =
      (validPairs num_values index window_size (sso.getD 1) (mpo.getD 0)).length := by
  refine ⟨rfl,
    calc_eq_validPairs num_values window_size sso mpo center cl index endMem,
    ?_, ?_⟩ <;>
    rw [calc_eq_validPairs num_values window_size sso mpo center cl index endMem] <;>
    simp

/--
C3: `closed` defaults to `left`; `right_open` holds exactly when the
defaulted `closed` is neither `right` nor `both`, `left_open` exactly when it
is neither `left` nor `both`; validity is decided on the pre-adjustment
bounds (`validPairs`), and the returned sequences are exactly the surviving
bounds with every start decremented by 1 when `left_open` and every end
incremented by 1 when `right_open`, and no other change.
-/
theorem c3_closed_flags_and_adjustment (num_values : Nat) (window_size : Int)
    (sso mpo : Option Int) (center : Option Bool) (cl : Option String)
    (index : List Int) (endMem : Nat → Int) :
    (rightOpenFlag (cl.getD "left") = true ↔
      (cl.getD "left" ≠ "right" ∧ cl.getD "left" ≠ "both")) ∧
    (leftOpenFlag (cl.getD "left") = true ↔
      (cl.getD "left" ≠ "left" ∧ cl.getD "left" ≠ "both")) ∧
    calculate_variable_window_bounds num_values window_size sso mpo center cl
        index endMem =
      ((validPairs num_values index window_size (sso.getD 1) (mpo.getD 0)).map
        (fun p => p.1 - (if leftOpenFlag (cl.getD "left") then 1 else 0)),
       (validPairs num_values index window_size (sso.getD 1) (mpo.getD 0)).map
        (fun p => p.2 + (if rightOpenFlag (cl.getD "left") then 1 else 0))) :=
  ⟨rightOpenFlag_iff _, leftOpenFlag_iff _,
    calc_eq_validPairs num_values window_size sso mpo center cl index endMem⟩

/--
C10: the returned sequences are independent of the garbage contents of the
never-written `end` slots (the `start` sentinel `-1` fails the `start >= 0`
test, so such slots are always dropped), and every surviving slot is one the
sweep actually wrote.
-/
theorem c10_no_garbage_slot_exposed (num_values : Nat) (window_size : Int)
    (sso mpo : Option Int) (center : Option Bool) (cl : Option String)
    (index : List Int) (endMem endMem' : Nat → Int) :
    calculate_variable_window_bounds num_values window_size sso mpo center cl
        index endMem =
      calculate_variable_window_bounds num_values window_size sso mpo center cl
        index endMem' ∧
    ∀ p ∈ validPairs num_values index window_size (sso.getD 1) (mpo.getD 0),
      p ∈ sweepPairs num_values index window_size (sso.getD 1) := by
  refine ⟨?_, fun p hp => List.mem_of_mem_filter hp⟩
  rw [calc_eq_validPairs num_values window_size sso mpo center cl index endMem,
    calc_eq_validPairs num_values window_size sso mpo center cl index endMem']

/--
C7: for every call on a monotonic index of length `N` (passed as
`num_values = N` the way the caller does), the two returned sequences have
equal length, and every surviving slot's pre-adjustment bounds satisfy
`0 <= start <= end < N`.
-/
theorem c7_lengths_and_position_bounds (window_size : Int)
    (sso mpo : Option Int) (center : Option Bool) (cl : Option String)
    (index : List Int) (endMem : Nat → Int)
    (hmono : index.Pairwise (· ≤ ·) ∨ index.Pairwise (· ≥ ·)) :
    (calculate_variable_window_bounds index.length window_size sso mpo center cl
        index endMem).1.length =
      (calculate_variable_window_bounds index.length window_size sso mpo center cl
        index endMem).2.length ∧
    ∀ p ∈ validPairs index.length index window_size (sso.getD 1) (mpo.getD 0),
      0 ≤ p.1 ∧ p.1 ≤ p.2 ∧ p.2 < (index.length : Int) := by
  constructor
  · rw [calc_eq_validPairs index.length window_size sso mpo center cl index endMem]
    simp
  · intro p hp
    have hcond := List.of_mem_filter hp
    have hmem := List.mem_of_mem_filter hp
    unfold validCond at hcond
    simp only [Bool.and_eq_true, decide_eq_true_eq] at hcond
    obtain ⟨⟨h1, h2⟩, h3⟩ := hcond
    refine ⟨h1, h2, ?_⟩
    unfold sweepPairs at hmem
    rcases hsw : sweepLoop index (idxScalar index.length index) window_size
        (sso.getD 1) index.length index.length 0 0 with _ | ps
    · rw [hsw] at hmem
      simp at hmem
    · rw [hsw] at hmem
      simp only [Option.getD_some] at hmem
      obtain ⟨s, w, hpw, hs, hw⟩ := sweepLoop_shape index
        (idxScalar index.length index) window_size (sso.getD 1) index.length
        index.length 0 0 ps (Nat.le_refl 0) hsw p hmem
      rw [hpw]
      show ((w : Nat) : Int) < (index.length : Int)
      exact_mod_cast hw

/-- Witness for C7 at a concrete monotonic input. -/
theorem c7_lengths_and_position_bounds_witness :
    (calculate_variable_window_bounds 3 2 (some 1) (some 0) none (some "left")
        [0, 1, 2] (fun _ => 7)).1.length =
      (calculate_variable_window_bounds 3 2 (some 1) (some 0) none (some "left")
        [0, 1, 2] (fun _ => 7)).2.length ∧
    ∀ p ∈ validPairs 3 [0, 1, 2] 2 1 0,
      0 ≤ p.1 ∧ p.1 ≤ p.2 ∧ p.2 < ((3 : Nat) : Int) :=
  c7_lengths_and_position_bounds 2 (some 1) (some 0) none (some "left")
    [0, 1, 2] (fun _ => 7) (Or.inl (by decide))

/--
C9: for a monotonic index of length at least 1 and step size at least 1, the
sweep with fuel `N` (the amount the wrapper passes) terminates without
exhausting the fuel — `next_index_ei` grows by at least 1 per iteration — and
emits at most `N` slots, so the write cursor `window_i` never exceeds `N`.
-/
theorem c9_sweep_terminates (window_size : Int) (sso : Option Int)
    (index : List Int)
    (h1 : 1 ≤ index.length) (h2 : 1 ≤ sso.getD 1)
    (hmono : index.Pairwise (· ≤ ·) ∨ index.Pairwise (· ≥ ·)) :
    ∃ ps, sweepLoop index (idxScalar index.length index) window_size (sso.getD 1)
        index.length index.length 0 0 = some ps ∧ ps.length ≤ index.length := by
  obtain ⟨ps, hps, hlen⟩ := sweepLoop_isSome index (idxScalar index.length index)
    window_size (sso.getD 1) index.length index.length 0 0 (by omega)
  exact ⟨ps, hps, by omega⟩

/-- Witness for C9 at a concrete input. -/
theorem c9_sweep_terminates_witness :
    (1 ≤ ([0, 2, 3] : List Int).length) ∧ (1 ≤ (some (1 : Int)).getD 1) ∧
    ∃ ps, sweepLoop [0, 2, 3] (idxScalar 3 [0, 2, 3]) 2 ((some (1 : Int)).getD 1)
        ([0, 2, 3] : List Int).length ([0, 2, 3] : List Int).length 0 0 = some ps ∧
      ps.length ≤ ([0, 2, 3] : List Int).length :=
  ⟨by decide, by decide,
    c9_sweep_terminates 2 (some 1) [0, 2, 3] (by decide) (by decide)
      (Or.inl (by decide))⟩

/--
C1 (amended): when `step_size >= window_size >= 0`, every surviving window's
positions all carry index values within `window_size` index-units of the
value at the window's start, in the detected direction.  (When
`step_size < window_size` the window scan resumes from the previous window's
end and does not re-check the skipped positions against the new ceiling, and
the containment can fail — see the counterexample.)
-/
theorem c1_containment_of_step_ge_window (num_values : Nat) (window_size : Int)
    (sso mpo : Option Int) (index : List Int)
    (hws : 0 ≤ window_size) (hss : window_size ≤ sso.getD 1) :
    ∀ s e : Nat, ((s : Int), (e : Int)) ∈
        validPairs num_values index window_size (sso.getD 1) (mpo.getD 0) →
      ∀ q : Nat, s ≤ q → q ≤ e →
        idxScalar num_values index *
          (index.getD q 0 - index.getD s 0) ≤ window_size := by
  intro s e hmem q hq1 hq2
  have hmem' := List.mem_of_mem_filter hmem
  unfold sweepPairs at hmem'
  rcases hsw : sweepLoop index (idxScalar num_values index) window_size
      (sso.getD 1) num_values num_values 0 0 with _ | ps
  · rw [hsw] at hmem'
    simp at hmem'
  · rw [hsw] at hmem'
    simp only [Option.getD_some] at hmem'
    obtain ⟨s', w', hpw, hcont⟩ := sweepLoop_containment index
      (idxScalar num_values index) window_size (sso.getD 1) num_values
      (idxScalar_cases num_values index) hws hss num_values 0 0 ps rfl hsw
      _ hmem'
    have hs : s = s' := by
      have h := congrArg Prod.fst hpw
      simpa using h
    have he : e = w' := by
      have h := congrArg Prod.snd hpw
      simpa using h
    subst hs
    subst he
    exact hcont q hq1 hq2

/-- Witness for C1 (amended) at a concrete input with step = window = 2. -/
theorem c1_containment_of_step_ge_window_witness :
    ((0 : Int) ≤ 2) ∧ ((2 : Int) ≤ (some (2 : Int)).getD 1) ∧
    ∀ s e : Nat, ((s : Int), (e : Int)) ∈ validPairs 4 [0, 2, 3, 9] 2 2 0 →
      ∀ q : Nat, s ≤ q → q ≤ e →
        idxScalar 4 [0, 2, 3, 9] *
          (([0, 2, 3, 9] : List Int).getD q 0 - ([0, 2, 3, 9] : List Int).getD s 0) ≤ 2 :=
  ⟨by decide, by decide,
    c1_containment_of_step_ge_window 4 2 (some 2) (some 0) [0, 2, 3, 9]
      (by decide) (by decide)⟩

/--
C1 counterexample: a monotonic index with `window_size = 3`, `step_size = 1`,
`min_periods = 0` retains the slot `(1, 3)` although position `3` carries the
index value `5`, which is `4 > window_size` index-units beyond the value `1`
at the window's start. -/
theorem c1_containment_counterexample :
    ((1 : Int), (3 : Int)) ∈ validPairs 4 [0, 1, 1, 5] 3 1 0 ∧
    idxScalar 4 [0, 1, 1, 5] *
      (([0, 1, 1, 5] : List Int).getD 3 0 - ([0, 1, 1, 5] : List Int).getD 1 0) > 3 := by
  decide

/--
C4 (amended): the function validates nothing.  A `closed` string outside the
four recognized tokens silently behaves exactly like `neither` (both
boundaries open); non-positive `step_size`, negative `window_size` and
negative `min_periods` (all quantified here) are likewise accepted, the sweep
runs, and an ordinary result is returned — no error is signalled.
-/
theorem c4_unrecognized_closed_behaves_as_neither (num_values : Nat)
    (window_size : Int) (sso mpo : Option Int) (center : Option Bool)
    (s : String) (index : List Int) (endMem : Nat → Int)
    (hs1 : s ≠ "left") (hs2 : s ≠ "right") (hs3 : s ≠ "both") (hs4 : s ≠ "neither") :
    calculate_variable_window_bounds num_values window_size sso mpo center
        (some s) index endMem =
      calculate_variable_window_bounds num_values window_size sso mpo center
        (some "neither") index endMem := by
  rw [calc_eq_validPairs num_values window_size sso mpo center (some s) index endMem,
    calc_eq_validPairs num_values window_size sso mpo center (some "neither") index endMem]
  have hl : leftOpenFlag ((some s).getD "left") = true := by
    simp only [Option.getD_some]
    exact (leftOpenFlag_iff s).mpr ⟨hs1, hs3⟩
  have hr : rightOpenFlag ((some s).getD "left") = true := by
    simp only [Option.getD_some]
    exact (rightOpenFlag_iff s).mpr ⟨hs2, hs3⟩
  have hln : leftOpenFlag ((some "neither").getD "left") = true := rfl
  have hrn : rightOpenFlag ((some "neither").getD "left") = true := rfl
  rw [hl, hr, hln, hrn]

/-- Witness for C4 (amended) at a concrete unrecognized token. -/
theorem c4_unrecognized_closed_behaves_as_neither_witness :
    ("invalid" ≠ "left") ∧ ("invalid" ≠ "right") ∧ ("invalid" ≠ "both") ∧
    ("invalid" ≠ "neither") ∧
    calculate_variable_window_bounds 3 2 none none none (some "invalid")
        [0, 1, 2] (fun _ => 0) =
      calculate_variable_window_bounds 3 2 none none none (some "neither")
        [0, 1, 2] (fun _ => 0) :=
  ⟨by decide, by decide, by decide, by decide,
    c4_unrecognized_closed_behaves_as_neither 3 2 none none none "invalid"
      [0, 1, 2] (fun _ => 0) (by decide) (by decide) (by decide) (by decide)⟩

/--
C4 counterexample: with `closed` not a recognized token, `step_size = 0`,
`window_size = -5` and `min_periods = -1` — all of which the claim says must
be rejected with an invalid-argument error before the sweep — the function
instead runs the sweep and returns an ordinary, fully formed result.
-/
theorem c4_no_error_on_invalid_arguments :
    calculate_variable_window_bounds 3 (-5) (some 0) (some (-1)) none
        (some "garbage") [0, 1, 2] (fun _ => 0) = ([-1, 0, 1], [1, 2, 3]) := by
  decide

/--
C5: the concrete scenario `index = [0,1,2,3,4]`, `window_size = 3`,
`step_size = 1`, `min_periods = 0`, `closed = "left"`.  The emitted starts are
`[0, 1, 2]` — the trailing starts 3 and 4 are truncated away because the
sweep stops once a window's end reaches the last position — each surviving
window covers the inclusive position (and index) span `[i, i+2]`, the flags
are `left_open = false` and `right_open = true`, and every returned end is
the inclusive window end incremented by 1.
-/
theorem c5_concrete_scenario :
    calculate_variable_window_bounds 5 3 (some 1) (some 0) none (some "left")
        [0, 1, 2, 3, 4] (fun i => 37 + (i : Int)) = ([0, 1, 2], [3, 4, 5]) ∧
    validPairs 5 [0, 1, 2, 3, 4] 3 1 0 = [(0, 2), (1, 3), (2, 4)] ∧
    leftOpenFlag ((some "left").getD "left") = false ∧
    rightOpenFlag ((some "left").getD "left") = true ∧
    (calculate_variable_window_bounds 5 3 (some 1) (some 0) none (some "left")
        [0, 1, 2, 3, 4] (fun i => 37 + (i : Int))).2 =
      (validPairs 5 [0, 1, 2, 3, 4] 3 1 0).map (fun p => p.2 + 1) := by
  refine ⟨by decide, by decide, rfl, rfl, by decide⟩

/-! ## Direction invariance machinery (C8) -/

/-- Scan congruence: pointwise equivalent exceedance tests below `hi` give
equal scans. -/
theorem scanBreakFrom_congr (index1 index2 : List Int) (sc1 sc2 mx1 mx2 : Int)
    (hi : Nat)
    (hc : ∀ q, q < hi →
      ((sc2 * index2.getD q 0 > sc2 * mx2) ↔ (sc1 * index1.getD q 0 > sc1 * mx1))) :
    ∀ cnt lo, lo + cnt ≤ hi →
      scanBreakFrom index2 sc2 mx2 cnt lo = scanBreakFrom index1 sc1 mx1 cnt lo := by
  intro cnt
  induction cnt with
  | zero => intro lo _; rfl
  | succ n ih =>
    intro lo hle
    rw [scanBreakFrom, scanBreakFrom]
    exact if_congr (hc lo (by omega)) rfl (ih (lo + 1) (by omega))

/-- The two inner scans agree across two renderings of the same index data
whose scalar-adjusted values have equal pairwise differences in range. -/
theorem scanBreak_congr (index1 index2 : List Int) (sc1 sc2 k : Int)
    (si lo nv : Nat)
    (hsc1 : sc1 = 1 ∨ sc1 = -1) (hsc2 : sc2 = 1 ∨ sc2 = -1)
    (hsi : si < nv)
    (hpt : ∀ p q : Nat, p < nv → q < nv →
      sc2 * index2.getD p 0 - sc2 * index2.getD q 0 =
        sc1 * index1.getD p 0 - sc1 * index1.getD q 0) :
    scanBreak index2 sc2 (index2.getD si 0 + sc2 * k) lo nv =
      scanBreak index1 sc1 (index1.getD si 0 + sc1 * k) lo nv := by
  have key : ∀ a b c d m : Int, a - b = c - d → (a > b + m ↔ c > d + m) := by
    intro a b c d m h
    constructor <;> intro h2 <;> linarith
  have hc : ∀ q, q < nv →
      ((sc2 * index2.getD q 0 > sc2 * (index2.getD si 0 + sc2 * k)) ↔
        (sc1 * index1.getD q 0 > sc1 * (index1.getD si 0 + sc1 * k))) := by
    intro q hq
    have e2 : sc2 * (index2.getD si 0 + sc2 * k) = sc2 * index2.getD si 0 + k := by
      rcases hsc2 with rfl | rfl <;> ring
    have e1 : sc1 * (index1.getD si 0 + sc1 * k) = sc1 * index1.getD si 0 + k := by
      rcases hsc1 with rfl | rfl <;> ring
    rw [e2, e1]
    exact key _ _ _ _ k (hpt q si hq hsi)
  unfold scanBreak
  by_cases hlo : lo ≤ nv
  · rw [scanBreakFrom_congr index1 index2 sc1 sc2 _ _ nv hc (nv - lo) lo (by omega)]
  · have h2 : nv - lo = 0 := by omega
    rw [h2]
    rfl

/-- Sweep congruence: two renderings with equal pairwise scalar-adjusted
differences produce identical slot lists. -/
theorem sweepLoop_congr (index1 index2 : List Int) (sc1 sc2 ws ss : Int)
    (nv : Nat)
    (hsc1 : sc1 = 1 ∨ sc1 = -1) (hsc2 : sc2 = 1 ∨ sc2 = -1)
    (hpt : ∀ p q : Nat, p < nv → q < nv →
      sc2 * index2.getD p 0 - sc2 * index2.getD q 0 =
        sc1 * index1.getD p 0 - sc1 * index1.getD q 0) :
    ∀ fuel nsi nei : Nat, nsi ≤ nei →
      sweepLoop index2 sc2 ws ss nv fuel nsi nei =
        sweepLoop index1 sc1 ws ss nv fuel nsi nei := by
  intro fuel
  induction fuel with
  | zero => intro nsi nei _; rfl
  | succ n ih =>
    intro nsi nei hle
    by_cases hg : nei < nv
    · have hsi : nsi < nv := by omega
      have hstep : stepEnd index2 sc2 ss nsi nv = stepEnd index1 sc1 ss nsi nv := by
        unfold stepEnd
        exact scanBreak_congr index1 index2 sc1 sc2 (ss - 1) nsi (nsi + 1) nv
          hsc1 hsc2 hsi hpt
      have hwin : windowEnd index2 sc2 ws nsi nei nv =
          windowEnd index1 sc1 ws nsi nei nv := by
        unfold windowEnd
        exact scanBreak_congr index1 index2 sc1 sc2 (ws - 1) nsi (nei + 1) nv
          hsc1 hsc2 hsi hpt
      have hrec := ih (stepEnd index1 sc1 ss nsi nv + 1)
        (nextEi (stepEnd index1 sc1 ss nsi nv) (windowEnd index1 sc1 ws nsi nei nv))
        (nextEi_ge_left _ _)
      simp only [sweepLoop]
      rw [if_pos hg, if_pos hg, hstep, hwin, hrec]
    · simp only [sweepLoop]
      rw [if_neg hg, if_neg hg]

/-- `getD` through element-wise negation. -/
theorem getD_map_neg (index : List Int) (p : Nat) :
    (index.map (fun x : Int => -x)).getD p 0 = -(index.getD p 0) := by
  simpa using List.getD_map index (0 : Int) (fun x : Int => -x)

/-- `getD` is monotone along an ascending list. -/
theorem pairwise_getD_mono (index : List Int) (h : index.Pairwise (· ≤ ·)) :
    ∀ p q : Nat, p ≤ q → q < index.length → index.getD p 0 ≤ index.getD q 0 := by
  intro p q hpq hq
  rcases Nat.eq_or_lt_of_le hpq with rfl | hlt
  · exact le_refl _
  · have hp : p < index.length := by omega
    rw [List.getD_eq_getElem index 0 hp, List.getD_eq_getElem index 0 hq]
    exact List.pairwise_iff_getElem.mp h p q hp hq hlt

/--
C8 (amended): running the calculator on the element-wise negation of an
ascending index (the same `window_size` is the appropriate one, since
negation preserves every index gap) returns bounds *identical* to — not a
mirror image of — the bounds of the original call: the single sign-flip
`idx_scalar` makes every comparison coincide.
-/
theorem c8_negation_gives_identical_bounds (window_size : Int)
    (sso mpo : Option Int) (center : Option Bool) (cl : Option String)
    (index : List Int) (endMem : Nat → Int)
    (hasc : index.Pairwise (· ≤ ·)) :
    calculate_variable_window_bounds index.length window_size sso mpo center cl
        (index.map (fun x => -x)) endMem =
      calculate_variable_window_bounds index.length window_size sso mpo center cl
        index endMem := by
  by_cases hnil : index = []
  · subst hnil
    rfl
  · have hlen : 0 < index.length := List.length_pos.mpr hnil
    have hmono := pairwise_getD_mono index hasc
    have hneg : ∀ p : Nat,
        (index.map (fun x : Int => -x)).getD p 0 = -(index.getD p 0) :=
      fun p => getD_map_neg index p
    rw [calc_eq_validPairs index.length window_size sso mpo center cl
        (index.map (fun x => -x)) endMem,
      calc_eq_validPairs index.length window_size sso mpo center cl index endMem]
    have hsc1 : idxScalar index.length index = 1 := by
      unfold idxScalar
      rw [if_neg]
      have := hmono 0 (index.length - 1) (by omega) (by omega)
      omega
    have hvp : validPairs index.length (index.map (fun x => -x)) window_size
        (sso.getD 1) (mpo.getD 0) =
        validPairs index.length index window_size (sso.getD 1) (mpo.getD 0) := by
      unfold validPairs sweepPairs
      by_cases hdir : index.getD 0 0 < index.getD (index.length - 1) 0
      · have hsc2 : idxScalar index.length (index.map (fun x => -x)) = -1 := by
          unfold idxScalar
          rw [hneg, hneg, if_pos (by omega)]
        rw [hsc1, hsc2]
        rw [sweepLoop_congr index (index.map (fun x => -x)) 1 (-1) window_size
          (sso.getD 1) index.length (Or.inl rfl) (Or.inr rfl)
          (by intro p q hp hq; rw [hneg, hneg]; ring)
          index.length 0 0 (Nat.le_refl 0)]
      · have hconst : ∀ p : Nat, p < index.length →
            index.getD p 0 = index.getD 0 0 := by
          intro p hp
          have h1 := hmono 0 p (by omega) hp
          have h2 := hmono p (index.length - 1) (by omega) (by omega)
          omega
        have hsc2 : idxScalar index.length (index.map (fun x => -x)) = 1 := by
          unfold idxScalar
          rw [hneg, hneg, if_neg (by omega)]
        rw [hsc1, hsc2]
        rw [sweepLoop_congr index (index.map (fun x => -x)) 1 1 window_size
          (sso.getD 1) index.length (Or.inl rfl) (Or.inl rfl)
          (by
            intro p q hp hq
            rw [hneg, hneg]
            have e1 := hconst p hp
            have e2 := hconst q hq
            omega)
          index.length 0 0 (Nat.le_refl 0)]
    rw [hvp]

/-- Witness for C8 (amended): the spec's own evenly spaced ascending example
with `window_size = 2`. -/
theorem c8_negation_gives_identical_bounds_witness :
    (([0, 1, 2, 3, 4] : List Int).Pairwise (· ≤ ·)) ∧
    calculate_variable_window_bounds ([0, 1, 2, 3, 4] : List Int).length 2
        (some 1) (some 0) none (some "left")
        (([0, 1, 2, 3, 4] : List Int).map (fun x => -x)) (fun _ => 0) =
      calculate_variable_window_bounds ([0, 1, 2, 3, 4] : List Int).length 2
        (some 1) (some 0) none (some "left") [0, 1, 2, 3, 4] (fun _ => 0) :=
  ⟨by decide,
    c8_negation_gives_identical_bounds 2 (some 1) (some 0) none (some "left")
      [0, 1, 2, 3, 4] (fun _ => 0) (by decide)⟩

/--
C8 counterexample: for the ascending index `[0, 0, 1]` with
`window_size = 1`, `closed = "both"` (no boundary adjustment), the bounds of
the element-wise negated call are not the mirror image of the original
bounds — they are identical to them instead.
-/
theorem c8_mirror_counterexample :
    calculate_variable_window_bounds 3 1 (some 1) (some 0) none (some "both")
        (([0, 0, 1] : List Int).map (fun x => -x)) (fun _ => 0) ≠
      mirrorBounds 3 (calculate_variable_window_bounds 3 1 (some 1) (some 0)
        none (some "both") [0, 0, 1] (fun _ => 0)) ∧
    calculate_variable_window_bounds 3 1 (some 1) (some 0) none (some "both")
        (([0, 0, 1] : List Int).map (fun x => -x)) (fun _ => 0) =
      calculate_variable_window_bounds 3 1 (some 1) (some 0) none (some "both")
        [0, 0, 1] (fun _ => 0) := by
  refine ⟨by decide, by decide⟩
